/-
Verification of the tron-utils core (src/tron-utils/src/main.rs):
address derivation, Base58Check codec, ABI constructor-parameter
encoding, and recoverable-signature serialization.

Modelling conventions:
* Rust strings are modelled as `List Char` (all strings the code slices
  are ASCII hex strings, so byte indexing coincides with char indexing).
* Rust byte slices (`&[u8]`, `Vec<u8>`) are modelled as `List Nat`, with
  `% 256` inserted exactly where the `u8` width matters.
* Fallible Rust code returns a dedicated result inductive; a Rust panic
  (out-of-range string slice) is modelled as a distinguished `panicked`
  result, kept separate from ordinary error returns.
* The hashing and curve primitives used through external crates
  (`sha2::Sha256`, `sha3::Keccak256`, `secp256k1`, `bs58`, `hex`) are
  implemented here from their standard published algorithms, since the
  claims quantify over their outputs.
-/
import Mathlib

set_option maxRecDepth 10000

namespace TronUtils

/-! ### Byte-sequence utilities -/

/-- A list of naturals is a byte sequence when every element fits in 8 bits. -/
def IsBytes (l : List Nat) : Prop := ∀ b ∈ l, b < 256

instance : DecidablePred IsBytes := fun l => List.decidableBAll _ l

/-- Big-endian value of a byte sequence (`fold` of `acc * 256 + byte`),
as produced by interpreting a `&[u8]` as an unsigned big-endian integer. -/
def natOfBytes (l : List Nat) : Nat := l.foldl (fun a b => a * 256 + b) 0

/-- Fixed-width big-endian serialization: exactly `w` bytes, truncating
high bytes (models writing into a fixed `[u8; w]` buffer). -/
def bytesBE : Nat → Nat → List Nat
  | 0, _ => []
  | w + 1, n => bytesBE w (n / 256) ++ [n % 256]

theorem length_bytesBE (w n : Nat) : (bytesBE w n).length = w := by
  induction w generalizing n with
  | zero => rfl
  | succ w ih => simp [bytesBE, ih]

/-- Little-endian value of a byte sequence. -/
def natOfBytesLE (l : List Nat) : Nat := l.foldr (fun b a => a * 256 + b) 0

/-- Little-endian base-`b` digits of `n`, with explicit fuel so that the
kernel can evaluate it (`Nat.digits` is defined by well-founded recursion
and does not reduce definitionally). `natDigits` below instantiates the
fuel so that it never runs out. -/
def digitsAux (b : Nat) : Nat → Nat → List Nat
  | 0, _ => []
  | fuel + 1, n => if n = 0 then [] else n % b :: digitsAux b fuel (n / b)

/-- Little-endian base-`b` digits of `n` (agrees with `Nat.digits` for
`2 ≤ b`, see `natDigits_eq_digits`). -/
def natDigits (b n : Nat) : List Nat := digitsAux b n n

theorem digitsAux_eq_digits {b : Nat} (hb : 2 ≤ b) :
    ∀ fuel n, n ≤ fuel → digitsAux b fuel n = Nat.digits b n := by
  intro fuel
  induction fuel with
  | zero => intro n hn; interval_cases n; simp [digitsAux]
  | succ fuel ih =>
    intro n hn
    by_cases h0 : n = 0
    · subst h0; simp [digitsAux]
    · rw [digitsAux, if_neg h0, Nat.digits_def' (by omega : 1 < b) (by omega), ih]
      have : n / b < n := Nat.div_lt_self (by omega) (by omega)
      omega

theorem natDigits_eq_digits {b : Nat} (hb : 2 ≤ b) (n : Nat) :
    natDigits b n = Nat.digits b n :=
  digitsAux_eq_digits hb n n le_rfl

/-! ### Hex encoding / decoding (models the `hex` crate) -/

def hexDigitChars : List Char := "0123456789abcdef".toList

def hexDigit (d : Nat) : Char := hexDigitChars.getD d '?'

/-- `hex::encode`: lowercase, two chars per byte, high nibble first. -/
def hexEncodeChars (l : List Nat) : List Char :=
  l.flatMap fun b => [hexDigit (b % 256 / 16), hexDigit (b % 16)]

/-- Value of one hex digit char; accepts both cases, as `hex::decode` does. -/
def hexVal (c : Char) : Option Nat :=
  if c = '0' then some 0 else if c = '1' then some 1 else
  if c = '2' then some 2 else if c = '3' then some 3 else
  if c = '4' then some 4 else if c = '5' then some 5 else
  if c = '6' then some 6 else if c = '7' then some 7 else
  if c = '8' then some 8 else if c = '9' then some 9 else
  if c = 'a' ∨ c = 'A' then some 10 else if c = 'b' ∨ c = 'B' then some 11 else
  if c = 'c' ∨ c = 'C' then some 12 else if c = 'd' ∨ c = 'D' then some 13 else
  if c = 'e' ∨ c = 'E' then some 14 else if c = 'f' ∨ c = 'F' then some 15 else none

/-- `hex::decode`: fails on odd length or on a non-hex character. -/
def hexDecodeChars : List Char → Option (List Nat)
  | [] => some []
  | [_] => none
  | h :: l :: rest =>
    match hexVal h, hexVal l, hexDecodeChars rest with
    | some a, some b, some r => some ((a * 16 + b) :: r)
    | _, _, _ => none

/-- Models `str::trim_start_matches("0x")`: strips every leading `0x`. -/
def trimStart0x : List Char → List Char
  | '0' :: 'x' :: rest => trimStart0x rest
  | l => l

/-! ### SHA-256 (models the `sha2` crate)

Standard FIPS 180-4 SHA-256 over byte sequences, with 32-bit words
represented as `Nat` reduced `% 2^32`. -/

def w32 : Nat := 4294967296

def add32 (a b : Nat) : Nat := (a + b) % w32

def rotr32 (x n : Nat) : Nat := ((x >>> n) ||| (x <<< (32 - n))) % w32

def shaBigSigma0 (x : Nat) : Nat := rotr32 x 2 ^^^ rotr32 x 13 ^^^ rotr32 x 22
def shaBigSigma1 (x : Nat) : Nat := rotr32 x 6 ^^^ rotr32 x 11 ^^^ rotr32 x 25
def shaSmallSigma0 (x : Nat) : Nat := rotr32 x 7 ^^^ rotr32 x 18 ^^^ (x >>> 3)
def shaSmallSigma1 (x : Nat) : Nat := rotr32 x 17 ^^^ rotr32 x 19 ^^^ (x >>> 10)
def shaCh (e f g : Nat) : Nat := (e &&& f) ^^^ ((e ^^^ (w32 - 1)) &&& g)
def shaMaj (a b c : Nat) : Nat := (a &&& b) ^^^ (a &&& c) ^^^ (b &&& c)

/-- The 64 round constants of FIPS 180-4 (decimal). -/
def shaK : List Nat :=
  [1116352408, 1899447441, 3049323471, 3921009573, 961987163, 1508970993,
   2453635748, 2870763221, 3624381080, 310598401, 607225278, 1426881987,
   1925078388, 2162078206, 2614888103, 3248222580, 3835390401, 4022224774,
   264347078, 604807628, 770255983, 1249150122, 1555081692, 1996064986,
   2554220882, 2821834349, 2952996808, 3210313671, 3336571891, 3584528711,
   113926993, 338241895, 666307205, 773529912, 1294757372, 1396182291,
   1695183700, 1986661051, 2177026350, 2456956037, 2730485921, 2820302411,
   3259730800, 3345764771, 3516065817, 3600352804, 4094571909, 275423344,
   430227734, 506948616, 659060556, 883997877, 958139571, 1322822218,
   1537002063, 1747873779, 1955562222, 2024104815, 2227730452, 2361852424,
   2428436474, 2756734187, 3204031479, 3329325298]

structure Sha256State where
  a : Nat
  b : Nat
  c : Nat
  d : Nat
  e : Nat
  f : Nat
  g : Nat
  h : Nat

/-- The initial hash values of FIPS 180-4 (decimal). -/
def shaInit : Sha256State :=
  ⟨1779033703, 3144134277, 1013904242, 2773480762,
   1359893119, 2600822924, 528734635, 1541459225⟩

/-- 32-bit words (big-endian) from a byte sequence, 4 bytes per word. -/
def wordsOfBytes : List Nat → List Nat
  | b0 :: b1 :: b2 :: b3 :: rest =>
    (((b0 * 256 + b1) * 256 + b2) * 256 + b3) :: wordsOfBytes rest
  | _ => []

/-- Extend the 16-word block to the 64-word message schedule. -/
def shaExtend : List Nat → Nat → List Nat
  | ws, 0 => ws
  | ws, i + 1 =>
    let t := ws.length
    let nw := (shaSmallSigma1 (ws.getD (t - 2) 0) + ws.getD (t - 7) 0 +
               shaSmallSigma0 (ws.getD (t - 15) 0) + ws.getD (t - 16) 0) % w32
    shaExtend (ws ++ [nw]) i

def shaRound (st : Sha256State) (kw : Nat × Nat) : Sha256State :=
  let t1 := (st.h + shaBigSigma1 st.e + shaCh st.e st.f st.g + kw.1 + kw.2) % w32
  let t2 := (shaBigSigma0 st.a + shaMaj st.a st.b st.c) % w32
  ⟨add32 t1 t2, st.a, st.b, st.c, add32 st.d t1, st.e, st.f, st.g⟩

def shaAddStates (x y : Sha256State) : Sha256State :=
  ⟨add32 x.a y.a, add32 x.b y.b, add32 x.c y.c, add32 x.d y.d,
   add32 x.e y.e, add32 x.f y.f, add32 x.g y.g, add32 x.h y.h⟩

def shaCompress (st : Sha256State) (block : List Nat) : Sha256State :=
  let ws := shaExtend (wordsOfBytes block) 48
  shaAddStates st ((shaK.zip ws).foldl shaRound st)

/-- Split a list into 64-byte chunks (fuel-structural for kernel
evaluation; `l.length` steps always suffice). -/
def chunks64Aux : Nat → List Nat → List (List Nat)
  | 0, _ => []
  | fuel + 1, l => if l = [] then [] else l.take 64 :: chunks64Aux fuel (l.drop 64)

def chunks64 (l : List Nat) : List (List Nat) := chunks64Aux l.length l

/-- SHA-256 padding: `0x80`, zeros, then the bit length as 8 bytes BE. -/
def shaPad (msg : List Nat) : List Nat :=
  let len := msg.length
  let zeros := (55 + 64 - len % 64) % 64
  msg ++ [0x80] ++ List.replicate zeros 0 ++ bytesBE 8 (len * 8)

def word32BE (x : Nat) : List Nat :=
  [x / 2 ^ 24 % 256, x / 2 ^ 16 % 256, x / 2 ^ 8 % 256, x % 256]

/-- SHA-256 of a byte sequence (models `sha2::Sha256`), as used by
`fn sha256` in the source. -/
def sha256 (data : List Nat) : List Nat :=
  let fin := (chunks64 (shaPad data)).foldl shaCompress shaInit
  word32BE fin.a ++ word32BE fin.b ++ word32BE fin.c ++ word32BE fin.d ++
  word32BE fin.e ++ word32BE fin.f ++ word32BE fin.g ++ word32BE fin.h

theorem length_sha256 (data : List Nat) : (sha256 data).length = 32 := by
  simp [sha256, word32BE]

theorem mem_word32BE_lt {b x : Nat} (hb : b ∈ word32BE x) : b < 256 := by
  simp only [word32BE, List.mem_cons, List.not_mem_nil, or_false] at hb
  rcases hb with rfl | rfl | rfl | rfl <;> exact Nat.mod_lt _ (by omega)

theorem isBytes_sha256 (data : List Nat) : IsBytes (sha256 data) := by
  intro b hb
  simp only [sha256, List.mem_append] at hb
  rcases hb with ((((((h | h) | h) | h) | h) | h) | h) | h <;>
    exact mem_word32BE_lt h

/-! ### Base58 (models the `bs58` crate)

Bitcoin-alphabet Base58: leading zero bytes map to leading `'1'`
characters, the remainder is the big-endian base-58 numeral of the
byte sequence's value. -/

def base58Alphabet : List Char :=
  "123456789ABCDEFGHJKLMNPQRSTUVWXYZabcdefghijkmnopqrstuvwxyz".toList

/-- Index of a character in a character list (`none` when absent). -/
def lookupIdx (c : Char) : List Char → Option Nat
  | [] => none
  | a :: rest => if a = c then some 0 else (lookupIdx c rest).map (· + 1)

def charVal (c : Char) : Option Nat := lookupIdx c base58Alphabet

def digitChar (d : Nat) : Char := base58Alphabet.getD d '?'

/-- Generic big-endian radix value of a digit list. -/
def radixVal (b : Nat) (l : List Nat) : Nat := l.foldl (fun a d => a * b + d) 0

/-- `bs58::encode`. -/
def b58EncodeChars (data : List Nat) : List Char :=
  List.replicate (data.takeWhile (· == 0)).length '1' ++
    (natDigits 58 (radixVal 256 data)).reverse.map digitChar

/-- Values of all characters, `none` if any is outside the alphabet. -/
def charVals : List Char → Option (List Nat)
  | [] => some []
  | c :: cs =>
    match charVal c, charVals cs with
    | some v, some vs => some (v :: vs)
    | _, _ => none

/-- `bs58::decode`: fails (`none`) on a character outside the alphabet. -/
def b58DecodeChars (cs : List Char) : Option (List Nat) :=
  match charVals cs with
  | none => none
  | some vals =>
    some (List.replicate (cs.takeWhile (· == '1')).length 0 ++
      (natDigits 256 (radixVal 58 vals)).reverse)

/-! ### The source's Base58Check codec -/

/-- Codec failures. The source reports errors through `anyhow`; the
spec's error taxonomy groups the two malformed-input messages
("Invalid base58 address", "Address too short") as `FormatError`, and
"Invalid checksum" is `ChecksumError`. -/
inductive CodecErr where
  | formatError
  | checksumError
deriving DecidableEq, Repr

/-- Result of `bs58_check_decode`. -/
inductive B58Result where
  | ok (payload : List Nat)
  | err (e : CodecErr)
deriving DecidableEq, Repr

/-- `fn bs58_check_encode`: append the first 4 bytes of the double
SHA-256 of the data, then Base58-encode. -/
def bs58_check_encode (data : List Nat) : List Char :=
  b58EncodeChars (data ++ (sha256 (sha256 data)).take 4)

/-- `fn bs58_check_decode`: Base58-decode, require at least 4 bytes,
split off the 4-byte checksum and verify it. -/
def bs58_check_decode (address : List Char) : B58Result :=
  match b58DecodeChars address with
  | none => .err .formatError
  | some decoded =>
    if decoded.length < 4 then .err .formatError
    else
      let data := decoded.take (decoded.length - 4)
      let checksum := decoded.drop (decoded.length - 4)
      if (sha256 (sha256 data)).take 4 = checksum then .ok data
      else .err .checksumError

/-! ### Keccak-256 (models the `sha3::Keccak256` crate)

Original Keccak (pad byte `0x01`), rate 136 bytes, 64-bit lanes as
`Nat` reduced `% 2^64`, lane index `i = x + 5*y`. -/

def w64 : Nat := 18446744073709551616

def rotl64 (x n : Nat) : Nat := ((x <<< n) ||| (x >>> (64 - n))) % w64

/-- The 24 round constants of Keccak-f[1600] (decimal). -/
def keccakRC : List Nat :=
  [1, 32898, 9223372036854808714, 9223372039002292224,
   32907, 2147483649, 9223372039002292353, 9223372036854808585,
   138, 136, 2147516425, 2147483658,
   2147516555, 9223372036854775947, 9223372036854808713, 9223372036854808579,
   9223372036854808578, 9223372036854775936, 32778, 9223372039002259466,
   9223372039002292353, 9223372036854808704, 2147483649, 9223372039002292232]

/-- Rotation offsets: `keccakRotRow x` lists the offsets of lanes
`(x, 0) … (x, 4)`. -/
def keccakRotRow : Nat → List Nat
  | 0 => [0, 36, 3, 41, 18]
  | 1 => [1, 44, 10, 45, 2]
  | 2 => [62, 6, 43, 15, 61]
  | 3 => [28, 55, 25, 21, 56]
  | _ => [27, 20, 39, 8, 14]

/-- Rotation offset of lane `i = x + 5*y`. -/
def keccakRot (i : Nat) : Nat := (keccakRotRow (i % 5)).getD (i / 5) 0

def keccakTheta (a : List Nat) : List Nat :=
  let c := (List.range 5).map fun x =>
    a.getD x 0 ^^^ a.getD (x + 5) 0 ^^^ a.getD (x + 10) 0 ^^^
    a.getD (x + 15) 0 ^^^ a.getD (x + 20) 0
  let d := (List.range 5).map fun x =>
    c.getD ((x + 4) % 5) 0 ^^^ rotl64 (c.getD ((x + 1) % 5) 0) 1
  (List.range 25).map fun i => a.getD i 0 ^^^ d.getD (i % 5) 0

/-- ρ and π combined: output lane `(y, (2x+3y) mod 5)` is input lane
`(x, y)` rotated by the offset table. -/
def keccakRhoPi (a : List Nat) : List Nat :=
  (List.range 25).foldl
    (fun b i =>
      let x := i % 5
      let y := i / 5
      let j := y + 5 * ((2 * x + 3 * y) % 5)
      b.set j (rotl64 (a.getD i 0) (keccakRot i)))
    (List.replicate 25 0)

def keccakChi (b : List Nat) : List Nat :=
  (List.range 25).map fun i =>
    let x := i % 5
    let row := 5 * (i / 5)
    b.getD i 0 ^^^ ((b.getD (row + (x + 1) % 5) 0 ^^^ (w64 - 1)) &&&
                    b.getD (row + (x + 2) % 5) 0)

def keccakRound (a : List Nat) (rc : Nat) : List Nat :=
  let b := keccakChi (keccakRhoPi (keccakTheta a))
  b.set 0 (b.getD 0 0 ^^^ rc)

def keccakF (a : List Nat) : List Nat := keccakRC.foldl keccakRound a

/-- Keccak padding (`pad10*1` with domain byte `0x01`, rate 136). -/
def keccakPad (msg : List Nat) : List Nat :=
  let q := 136 - msg.length % 136
  if q = 1 then msg ++ [0x81]
  else msg ++ [0x01] ++ List.replicate (q - 2) 0 ++ [0x80]

/-- Split a padded message into 136-byte blocks (fuel-structural). -/
def chunks136Aux : Nat → List Nat → List (List Nat)
  | 0, _ => []
  | fuel + 1, l => if l = [] then [] else l.take 136 :: chunks136Aux fuel (l.drop 136)

def chunks136 (l : List Nat) : List (List Nat) := chunks136Aux l.length l

/-- 8-byte little-endian groups of a block, as 64-bit lanes
(fuel-structural). -/
def lanesOfBlockAux : Nat → List Nat → List Nat
  | 0, _ => []
  | fuel + 1, l => if l = [] then [] else natOfBytesLE (l.take 8) :: lanesOfBlockAux fuel (l.drop 8)

def lanesOfBlock (l : List Nat) : List Nat := lanesOfBlockAux l.length l

def keccakAbsorb (st : List Nat) (block : List Nat) : List Nat :=
  keccakF (st.zipWith (· ^^^ ·) (lanesOfBlock block ++ List.replicate 8 0))

/-- A 64-bit lane as 8 little-endian bytes. -/
def laneBytesLE (x : Nat) : List Nat :=
  [x % 256, x / 2 ^ 8 % 256, x / 2 ^ 16 % 256, x / 2 ^ 24 % 256,
   x / 2 ^ 32 % 256, x / 2 ^ 40 % 256, x / 2 ^ 48 % 256, x / 2 ^ 56 % 256]

/-- Keccak-256 digest: the first 32 output bytes, i.e. lanes 0-3 of the
final state in little-endian byte order. -/
def keccak256 (msg : List Nat) : List Nat :=
  let st := (chunks136 (keccakPad msg)).foldl keccakAbsorb (List.replicate 25 0)
  laneBytesLE (st.getD 0 0) ++ laneBytesLE (st.getD 1 0) ++
  laneBytesLE (st.getD 2 0) ++ laneBytesLE (st.getD 3 0)

theorem length_keccak256 (msg : List Nat) : (keccak256 msg).length = 32 := by
  simp [keccak256, laneBytesLE]

/-! ### secp256k1 (models the `secp256k1` crate)

Affine arithmetic over the curve y^2 = x^3 + 7 on F_p, with the point
at infinity as `none`. Scalar multiplication is the standard
double-and-add; extensionally this is the crate's group arithmetic. -/

def secpP : Nat :=
  0xfffffffffffffffffffffffffffffffffffffffffffffffffffffffefffffc2f

def secpN : Nat :=
  0xfffffffffffffffffffffffffffffffebaaedce6af48a03bbfd25e8cd0364141

def secpGx : Nat :=
  0x79be667ef9dcbbac55a06295ce870b07029bfcdb2dce28d959f2815b16f81798

def secpGy : Nat :=
  0x483ada7726a3c4655da4fbfc0e1108a8fd17b448a68554199c47d08ffb10d4b8

/-- Binary modular exponentiation (fuel-structural; the exponent at
least halves each step, so `e` units of fuel always suffice). -/
def powModAux (m : Nat) : Nat → Nat → Nat → Nat
  | 0, _, _ => 1 % m
  | fuel + 1, b, e =>
    if e = 0 then 1 % m
    else
      let r := powModAux m fuel (b * b % m) (e / 2)
      if e % 2 = 1 then r * b % m else r

def powMod (b e m : Nat) : Nat := powModAux m e b e

/-- Modular inverse by Fermat's little theorem (prime modulus). -/
def modInv (a m : Nat) : Nat := powMod a (m - 2) m

/-- Affine point: `none` is the point at infinity. -/
abbrev ECPoint := Option (Nat × Nat)

def secpSub (a b : Nat) : Nat := (a + secpP - b % secpP) % secpP

/-- Group arithmetic is carried out in Jacobian coordinates
`(X, Y, Z)` with affine `x = X/Z^2`, `y = Y/Z^3` and `Z = 0` for the
point at infinity, so that a scalar multiplication costs a single
modular inversion; extensionally this is the crate's (affine) group
law. Doubling is the standard a = 0 formula. -/
def jdouble : Nat × Nat × Nat → Nat × Nat × Nat
  | (x1, y1, z1) =>
    let a := x1 * x1 % secpP
    let b := y1 * y1 % secpP
    let c := b * b % secpP
    let d := 2 * secpSub ((x1 + b) * (x1 + b)) (a + c) % secpP
    let e := 3 * a % secpP
    let f := e * e % secpP
    (secpSub f (2 * d), secpSub (e * secpSub d (secpSub f (2 * d))) (8 * c),
     2 * y1 % secpP * z1 % secpP)

/-- Jacobian addition (general case; handles infinity, equal and
inverse inputs). -/
def jadd : Nat × Nat × Nat → Nat × Nat × Nat → Nat × Nat × Nat
  | (x1, y1, z1), (x2, y2, z2) =>
    if z1 = 0 then (x2, y2, z2)
    else if z2 = 0 then (x1, y1, z1)
    else
      let z1z1 := z1 * z1 % secpP
      let z2z2 := z2 * z2 % secpP
      let u1 := x1 * z2z2 % secpP
      let u2 := x2 * z1z1 % secpP
      let s1 := y1 * z2 % secpP * z2z2 % secpP
      let s2 := y2 * z1 % secpP * z1z1 % secpP
      if u1 = u2 then
        if s1 = s2 then jdouble (x1, y1, z1) else (0, 1, 0)
      else
        let h := secpSub u2 u1
        let i := 2 * h % secpP * (2 * h % secpP) % secpP
        let j := h * i % secpP
        let rr := 2 * secpSub s2 s1 % secpP
        let v := u1 * i % secpP
        let x3 := secpSub (secpSub (rr * rr) j) (2 * v)
        (x3, secpSub (rr * secpSub v x3) (2 * s1 % secpP * j),
         secpSub ((z1 + z2) * (z1 + z2)) (z1z1 + z2z2) * h % secpP)

/-- Scalar multiplication in Jacobian coordinates, double-and-add
(fuel-structural; the scalar halves each step, so `k` units of fuel
always suffice). -/
def jmulAux : Nat → Nat → Nat × Nat × Nat → Nat × Nat × Nat
  | 0, _, _ => (0, 1, 0)
  | fuel + 1, k, p =>
    if k = 0 then (0, 1, 0)
    else
      let h := jmulAux fuel (k / 2) p
      let d := jdouble h
      if k % 2 = 1 then jadd d p else d

/-- Scalar multiplication on affine points (the crate's group
operation): run the Jacobian ladder and convert back with one modular
inversion. -/
def pmul (k : Nat) (p : ECPoint) : ECPoint :=
  match p with
  | none => none
  | some (x, y) =>
    match jmulAux k k (x, y, 1) with
    | (xj, yj, zj) =>
      if zj = 0 then none
      else
        let zi := modInv zj secpP
        let zi2 := zi * zi % secpP
        some (xj * zi2 % secpP, yj * zi % secpP * zi2 % secpP)

def secpG : ECPoint := some (secpGx, secpGy)

/-- `SecretKey::from_slice` accepts exactly 32 bytes whose value is a
nonzero scalar below the group order. -/
def isValidSecretKey (kb : List Nat) : Bool :=
  kb.length = 32 && 0 < natOfBytes kb && natOfBytes kb < secpN

/-- `PublicKey::serialize_uncompressed`: `0x04 ‖ x (32 BE) ‖ y (32 BE)`.
The point at infinity has no serialization in the library and cannot
arise from a valid secret key; it is mapped to the all-zero coordinate
pattern to keep the model total. -/
def serializeUncompressed : ECPoint → List Nat
  | some (x, y) => 0x04 :: (bytesBE 32 x ++ bytesBE 32 y)
  | none => 0x04 :: (bytesBE 32 0 ++ bytesBE 32 0)

/-! ### Key-to-address derivation (`fn private_key_to_tron_address`) -/

inductive AddrResult where
  | ok (address : List Char)
  | invalidHex
  | invalidKey
deriving DecidableEq, Repr

/-- `fn private_key_to_tron_address`: strip `0x`, hex-decode, validate
the scalar, serialize the public key uncompressed, Keccak-256 the 64
coordinate bytes, take the digest from byte 12 on, prefix `0x41`, and
Base58Check-encode. -/
def private_key_to_tron_address (private_key : List Char) : AddrResult :=
  match hexDecodeChars (trimStart0x private_key) with
  | none => .invalidHex
  | some key_bytes =>
    if isValidSecretKey key_bytes then
      let pub_key_bytes := serializeUncompressed (pmul (natOfBytes key_bytes) secpG)
      let hash := keccak256 (pub_key_bytes.drop 1)
      .ok (bs58_check_encode (0x41 :: hash.drop 12))
    else .invalidKey

/-- `fn tron_address_to_hex`: Base58Check-decode then hex-encode. -/
def tron_address_to_hex (address : List Char) : Except CodecErr (List Char) :=
  match bs58_check_decode address with
  | .ok bytes => .ok (hexEncodeChars bytes)
  | .err e => .error e

/-- `fn hex_to_tron_address`: strip `0x`, hex-decode, Base58Check-encode. -/
def hex_to_tron_address (hex_addr : List Char) : Option (List Char) :=
  match hexDecodeChars (trimStart0x hex_addr) with
  | none => none
  | some bytes => some (bs58_check_encode bytes)

/-! ### ABI constructor-parameter encoding (`fn encode_constructor_params`) -/

/-- Rust's `format!("{:0>64}", s)`: left-pad with `'0'` to a minimum
width of 64 (longer strings pass through unchanged). -/
def padMin64 (s : List Char) : List Char :=
  List.replicate (64 - s.length) '0' ++ s

/-- Rust's `format!("{:x}", n)`: lowercase hex numeral, `"0"` for zero. -/
def natToHexChars (n : Nat) : List Char :=
  if n = 0 then ['0'] else (natDigits 16 n).reverse.map hexDigit

/-- Rust's `format!("{:0>64x}", n)`. -/
def natHexPad64 (n : Nat) : List Char := padMin64 (natToHexChars n)

/-- Result of `encode_constructor_params`. A Rust panic (the
out-of-range string slice `&hex[2..]`) is modelled as the distinguished
outcome `panicked`, separate from the ordinary error returns. -/
inductive EncResult where
  | ok (hex : List Char)
  | err (e : CodecErr)
  | panicked
deriving DecidableEq, Repr

/-- The `for owner in owners` loop body: decode each owner to hex,
slice off the 2-char `41` prefix (a panic when fewer than 2 chars are
present), pad to 64, and concatenate in input order. -/
def encodeOwnersData : List (List Char) → EncResult
  | [] => .ok []
  | owner :: rest =>
    match tron_address_to_hex owner with
    | .error e => .err e
    | .ok owner_hex =>
      if 2 ≤ owner_hex.length then
        match encodeOwnersData rest with
        | .ok restData => .ok (padMin64 (owner_hex.drop 2) ++ restData)
        | .err e => .err e
        | .panicked => .panicked
      else .panicked

/-- `fn encode_constructor_params`: ABI-encode
`(address _usdt, address[] _owners, uint256 _threshold)` as
`usdt word ‖ offset word (96) ‖ threshold word ‖ length word ‖ owner words`.
Note the function itself performs no threshold validation. -/
def encode_constructor_params (usdt : List Char) (owners : List (List Char))
    (threshold : Nat) : EncResult :=
  match tron_address_to_hex usdt with
  | .error e => .err e
  | .ok usdt_hex =>
    if 2 ≤ usdt_hex.length then
      let usdt_param := padMin64 (usdt_hex.drop 2)
      match encodeOwnersData owners with
      | .ok owners_data =>
        .ok (usdt_param ++ natHexPad64 96 ++ natHexPad64 threshold ++
             natHexPad64 owners.length ++ owners_data)
      | .err e => .err e
      | .panicked => .panicked
    else .panicked

/-- Result of the deploy-flow parameter encoding (threshold validation
of `fn deploy_contract` followed by `fn encode_constructor_params`). -/
inductive DeployEncResult where
  | ok (hex : List Char)
  | thresholdError
  | err (e : CodecErr)
  | panicked
deriving DecidableEq, Repr

/-- The parameter-encoding slice of `fn deploy_contract`: the threshold
check `threshold == 0 || threshold as usize > owner_list.len()` runs
before `encode_constructor_params` is called, so a bad threshold is
rejected before any address is decoded or encoded. -/
def deploy_encode_constructor_params (usdt : List Char)
    (owners : List (List Char)) (threshold : Nat) : DeployEncResult :=
  if threshold = 0 ∨ owners.length < threshold then .thresholdError
  else
    match encode_constructor_params usdt owners threshold with
    | .ok s => .ok s
    | .err e => .err e
    | .panicked => .panicked

/-! ### HMAC-SHA256 and the RFC 6979 nonce stream

`secp256k1`'s recoverable signing draws nonce candidates from the
RFC 6979 HMAC-SHA256 DRBG seeded with `key ‖ digest` and retries until
a candidate produces a valid signature. The unbounded retry loop is
modelled with fuel; the library's loop terminates for the same inputs. -/

def hmacSha256 (key msg : List Nat) : List Nat :=
  let k0 := key ++ List.replicate (64 - key.length) 0
  let ipad := k0.map (· ^^^ 0x36)
  let opad := k0.map (· ^^^ 0x5c)
  sha256 (opad ++ sha256 (ipad ++ msg))

/-- One signing attempt for nonce candidate `k` over message value `z`
with secret scalar `x`: returns `(recoveryId, r, s)` on success. The
recovery id is bit 0 = parity of `R.y`, bit 1 = whether `R.x`
overflowed the group order; the low-s normalization flips bit 0. -/
def signAttempt (x z k : Nat) : Option (Nat × Nat × Nat) :=
  if 1 ≤ k ∧ k < secpN then
    match pmul k secpG with
    | none => none
    | some (rx, ry) =>
      let r := rx % secpN
      if r = 0 then none
      else
        let s := modInv k secpN * ((z + r * x) % secpN) % secpN
        if s = 0 then none
        else
          let recid := (if secpN ≤ rx then 2 else 0) + ry % 2
          if secpN / 2 < s then some (recid ^^^ 1, r, secpN - s)
          else some (recid, r, s)
  else none

/-- The RFC 6979 generate/retry loop. -/
def signLoop (x z : Nat) (kk vv : List Nat) : Nat → Option (Nat × Nat × Nat)
  | 0 => none
  | fuel + 1 =>
    let v1 := hmacSha256 kk vv
    match signAttempt x z (natOfBytes v1) with
    | some out => some out
    | none =>
      let k2 := hmacSha256 kk (v1 ++ [0x00])
      let v2 := hmacSha256 k2 v1
      signLoop x z k2 v2 fuel

/-- Recoverable ECDSA signing with the RFC 6979 deterministic nonce
(models `Secp256k1::sign_ecdsa_recoverable`). -/
def ecdsaSignRecoverable (x : Nat) (digest : List Nat) : Option (Nat × Nat × Nat) :=
  let seed := bytesBE 32 x ++ digest
  let k0 := List.replicate 32 0
  let v0 := List.replicate 32 1
  let k1 := hmacSha256 k0 (v0 ++ [0x00] ++ seed)
  let v1 := hmacSha256 k1 v0
  let k2 := hmacSha256 k1 (v1 ++ [0x01] ++ seed)
  let v2 := hmacSha256 k2 v1
  signLoop x (natOfBytes digest % secpN) k2 v2 1000

/-! ### Transaction signing (`fn sign_transaction`) -/

inductive SignResult where
  | ok (hex : List Char)
  | invalidKeyHex
  | invalidTxHex
  | invalidKey
  | invalidDigest
  | nonceFailure
deriving DecidableEq, Repr

/-- `fn sign_transaction`: hex-decode the key and the transaction id,
validate the key scalar, require an exactly-32-byte digest, sign
recoverably, and hex-encode `r (32 BE) ‖ s (32 BE) ‖ recovery id (1 byte)`.
The recovery id is the library's native value pushed as a single byte
(`recovery_id.to_i32() as u8`), with no 27/28 remapping. `nonceFailure`
is the fuel-model stand-in for the library's non-terminating-retry case
and is unreachable for it. -/
def sign_transaction (tx_id : List Char) (private_key : List Char) : SignResult :=
  match hexDecodeChars (trimStart0x private_key) with
  | none => .invalidKeyHex
  | some key_bytes =>
    match hexDecodeChars tx_id with
    | none => .invalidTxHex
    | some tx_id_bytes =>
      if isValidSecretKey key_bytes then
        if tx_id_bytes.length = 32 then
          match ecdsaSignRecoverable (natOfBytes key_bytes) tx_id_bytes with
          | some (recid, r, s) =>
            .ok (hexEncodeChars (bytesBE 32 r ++ bytesBE 32 s ++ [recid]))
          | none => .nonceFailure
        else .invalidDigest
      else .invalidKey

/-! ### Lemmas: Base58 round trip -/

theorem radixVal_append (b : Nat) (l : List Nat) (d : Nat) :
    radixVal b (l ++ [d]) = radixVal b l * b + d := by
  simp [radixVal, List.foldl_append]

theorem radixVal_eq_ofDigits (b : Nat) (l : List Nat) :
    radixVal b l = Nat.ofDigits b l.reverse := by
  induction l using List.reverseRecOn with
  | nil => simp [radixVal, Nat.ofDigits]
  | append_singleton l d ih =>
    rw [radixVal_append, List.reverse_append]
    simp [Nat.ofDigits_cons, ih]
    ring

theorem radixVal_replicate_zero (b z : Nat) (l : List Nat) :
    radixVal b (List.replicate z 0 ++ l) = radixVal b l := by
  induction z with
  | zero => rfl
  | succ z ih => simpa [radixVal, List.replicate_succ] using ih

theorem radixVal_foldl_pos (b : Nat) (hb : 0 < b) (l : List Nat) :
    ∀ a : Nat, 0 < a → 0 < l.foldl (fun a d => a * b + d) a := by
  induction l with
  | nil => intro a ha; simpa using ha
  | cons d t ih =>
    intro a ha
    simp only [List.foldl_cons]
    exact ih _ (by positivity)

theorem radixVal_cons_pos (b : Nat) (hb : 0 < b) (d : Nat) (hd : d ≠ 0)
    (l : List Nat) : 0 < radixVal b (d :: l) := by
  simp only [radixVal, List.foldl_cons, Nat.zero_mul, Nat.zero_add]
  exact radixVal_foldl_pos b hb l d (Nat.pos_of_ne_zero hd)

theorem charVal_digitChar : ∀ d, d < 58 → charVal (digitChar d) = some d := by
  decide

theorem digitChar_ne_one : ∀ d, d < 58 → d ≠ 0 → digitChar d ≠ '1' := by
  decide

theorem charVals_append (l1 l2 : List Char) :
    charVals (l1 ++ l2) =
      (charVals l1).bind fun v1 => (charVals l2).map fun v2 => v1 ++ v2 := by
  induction l1 with
  | nil => cases hl2 : charVals l2 <;> simp [charVals, hl2]
  | cons c cs ih =>
    cases hc : charVal c <;> cases hcs : charVals cs <;> cases hl2 : charVals l2 <;>
      simp [List.cons_append, charVals, hc, hcs, hl2, ih]

theorem charVals_replicate_one (z : Nat) :
    charVals (List.replicate z '1') = some (List.replicate z 0) := by
  induction z with
  | zero => rfl
  | succ z ih => simp [List.replicate_succ, charVals, ih]; rfl

theorem charVals_map_digitChar (ds : List Nat) (h : ∀ d ∈ ds, d < 58) :
    charVals (ds.map digitChar) = some ds := by
  induction ds with
  | nil => rfl
  | cons d t ih =>
    simp only [List.map_cons, charVals]
    rw [charVal_digitChar d (h d (by simp)), ih fun d hd => h d (by simp [hd])]

theorem takeWhile_replicate_append (p : Char → Bool) (a : Char)
    (hp : p a = true) (z : Nat) (rest : List Char) :
    (List.replicate z a ++ rest).takeWhile p =
      List.replicate z a ++ rest.takeWhile p := by
  induction z with
  | zero => rfl
  | succ z ih => simp [List.replicate_succ, List.takeWhile_cons, hp, ih]

theorem dropWhile_head_false (p : Nat → Bool) :
    ∀ (l : List Nat) (a : Nat) (t : List Nat),
      l.dropWhile p = a :: t → p a = false := by
  intro l
  induction l with
  | nil => intro a t h; simp [List.dropWhile] at h
  | cons c cs ih =>
    intro a t h
    rw [List.dropWhile_cons] at h
    by_cases hc : p c
    · rw [if_pos hc] at h; exact ih a t h
    · rw [if_neg hc] at h
      cases h
      simpa using hc

/-- Unfolding of `b58DecodeChars` when all characters are valid. -/
theorem b58DecodeChars_eq (cs : List Char) (vals : List Nat)
    (h : charVals cs = some vals) :
    b58DecodeChars cs = some (List.replicate (cs.takeWhile (· == '1')).length 0 ++
      (natDigits 256 (radixVal 58 vals)).reverse) := by
  rw [b58DecodeChars, h]

/-- Unfolding of `b58DecodeChars` on an invalid character. -/
theorem b58DecodeChars_eq_none (cs : List Char) (h : charVals cs = none) :
    b58DecodeChars cs = none := by
  rw [b58DecodeChars, h]

/-- Key step of the round trip, stated over the canonical decomposition
of the input into `z` leading zero bytes and a remainder with a nonzero
head byte. -/
theorem b58_decode_encode_aux (z : Nat) (rest : List Nat)
    (hrb : ∀ x ∈ rest, x < 256)
    (hhead : ∀ r0 rt, rest = r0 :: rt → r0 ≠ 0) :
    b58DecodeChars (List.replicate z '1' ++
      (natDigits 58 (radixVal 256 rest)).reverse.map digitChar) =
    some (List.replicate z 0 ++ rest) := by
  cases rest with
  | nil =>
    have h0 : radixVal 256 ([] : List Nat) = 0 := rfl
    have hd0 : natDigits 58 0 = [] := rfl
    rw [h0, hd0]
    simp only [List.reverse_nil, List.map_nil, List.append_nil]
    rw [b58DecodeChars_eq _ _ (charVals_replicate_one z)]
    simp only [List.takeWhile_replicate]
    rw [if_pos (by decide : (('1' == '1') = true)), List.length_replicate]
    rw [show radixVal 58 (List.replicate z 0) = 0 by
      have := radixVal_replicate_zero 58 z []
      simpa [radixVal] using this]
    simp [natDigits, digitsAux]
  | cons r0 rtail =>
    have hr0 : r0 ≠ 0 := hhead r0 rtail rfl
    have hnpos : radixVal 256 (r0 :: rtail) ≠ 0 :=
      Nat.pos_iff_ne_zero.mp (radixVal_cons_pos 256 (by norm_num) r0 hr0 rtail)
    rw [natDigits_eq_digits (by norm_num)]
    have hds_ne : Nat.digits 58 (radixVal 256 (r0 :: rtail)) ≠ [] :=
      Nat.digits_ne_nil_iff_ne_zero.mpr hnpos
    have hds_lt : ∀ d ∈ Nat.digits 58 (radixVal 256 (r0 :: rtail)), d < 58 :=
      fun d hd => Nat.digits_lt_base (by norm_num) hd
    obtain ⟨d0, dsr, hdsr⟩ := List.exists_cons_of_ne_nil
      (fun h => hds_ne (List.reverse_eq_nil_iff.mp h) :
        (Nat.digits 58 (radixVal 256 (r0 :: rtail))).reverse ≠ [])
    have hd0_last : (Nat.digits 58 (radixVal 256 (r0 :: rtail))).getLast? = some d0 := by
      rw [← List.head?_reverse, hdsr]; rfl
    have hd0_ne : d0 ≠ 0 := by
      have hlast := Nat.getLast_digit_ne_zero 58 hnpos
      rw [List.getLast?_eq_getLast _ hds_ne] at hd0_last
      have h2 : (Nat.digits 58 (radixVal 256 (r0 :: rtail))).getLast hds_ne = d0 := by
        injection hd0_last
      rw [← h2]
      exact hlast
    have hd0_lt : d0 < 58 := hds_lt d0 (by
      rw [← List.mem_reverse, hdsr]; exact List.mem_cons_self _ _)
    have hcv : charVals (List.replicate z '1' ++
        (Nat.digits 58 (radixVal 256 (r0 :: rtail))).reverse.map digitChar) =
        some (List.replicate z 0 ++ (Nat.digits 58 (radixVal 256 (r0 :: rtail))).reverse) := by
      rw [charVals_append, charVals_replicate_one, charVals_map_digitChar _
        (fun d hd => hds_lt d (List.mem_reverse.mp hd))]
      rfl
    have htw : ((List.replicate z '1' ++
        (Nat.digits 58 (radixVal 256 (r0 :: rtail))).reverse.map digitChar).takeWhile
          (· == '1')).length = z := by
      rw [takeWhile_replicate_append _ _ (by decide), hdsr, List.map_cons,
        List.takeWhile_cons_of_neg (by
          simp only [beq_iff_eq]
          exact digitChar_ne_one d0 hd0_lt hd0_ne)]
      simp
    rw [b58DecodeChars_eq _ _ hcv, htw, radixVal_replicate_zero, radixVal_eq_ofDigits,
      List.reverse_reverse, Nat.ofDigits_digits]
    have hval : radixVal 256 (r0 :: rtail) = Nat.ofDigits 256 (r0 :: rtail).reverse :=
      radixVal_eq_ofDigits 256 _
    have hdig : Nat.digits 256 (radixVal 256 (r0 :: rtail)) = (r0 :: rtail).reverse := by
      rw [hval]
      refine Nat.digits_ofDigits 256 (by norm_num) _ ?_ ?_
      · intro x hx
        exact hrb x (List.mem_reverse.mp hx)
      · intro h
        have h1 : (r0 :: rtail).reverse.getLast? = some r0 := by
          rw [List.getLast?_reverse]; rfl
        rw [List.getLast?_eq_getLast _ h] at h1
        have h2 : (r0 :: rtail).reverse.getLast h = r0 := by injection h1
        rw [h2]
        exact hr0
    rw [natDigits_eq_digits (by norm_num), hdig, List.reverse_reverse]

/-- The Base58 round trip: decoding an encoding recovers the input,
for every byte sequence. -/
theorem b58_roundtrip (data : List Nat) (hb : IsBytes data) :
    b58DecodeChars (b58EncodeChars data) = some data := by
  have hz : data.takeWhile (· == 0) =
      List.replicate (data.takeWhile (· == 0)).length 0 := by
    rw [List.eq_replicate_iff]
    refine ⟨rfl, fun b hb' => ?_⟩
    have := List.mem_takeWhile_imp hb'
    simpa using this
  have hdata : data =
      List.replicate (data.takeWhile (· == 0)).length 0 ++ data.dropWhile (· == 0) := by
    conv_lhs => rw [← List.takeWhile_append_dropWhile (p := (· == 0)) (l := data)]
    rw [← hz]
  have hval : radixVal 256 data = radixVal 256 (data.dropWhile (· == 0)) := by
    conv_lhs => rw [hdata]
    rw [radixVal_replicate_zero]
  have henc : b58EncodeChars data =
      List.replicate (data.takeWhile (· == 0)).length '1' ++
        (natDigits 58 (radixVal 256 (data.dropWhile (· == 0)))).reverse.map digitChar := by
    rw [b58EncodeChars, hval]
  have hmem : ∀ x ∈ data.dropWhile (· == 0), x < 256 := by
    intro x hx
    refine hb x ?_
    rw [hdata]
    exact List.mem_append_right _ hx
  rw [henc, b58_decode_encode_aux _ _ hmem
    (fun r0 rt hr => by
      have := dropWhile_head_false (· == 0) data r0 rt hr
      simpa using this)]
  rw [← hdata]

/-! ### Lemmas: unfoldings of the checked codec -/

theorem bs58_check_decode_of_none (address : List Char)
    (h : b58DecodeChars address = none) :
    bs58_check_decode address = .err .formatError := by
  rw [bs58_check_decode, h]

theorem bs58_check_decode_of_some (address : List Char) (decoded : List Nat)
    (h : b58DecodeChars address = some decoded) :
    bs58_check_decode address =
      if decoded.length < 4 then .err .formatError
      else if (sha256 (sha256 (decoded.take (decoded.length - 4)))).take 4 =
          decoded.drop (decoded.length - 4) then
        .ok (decoded.take (decoded.length - 4))
      else .err .checksumError := by
  rw [bs58_check_decode, h]

theorem lookupIdx_eq_none_iff (c : Char) (l : List Char) :
    lookupIdx c l = none ↔ c ∉ l := by
  induction l with
  | nil => simp [lookupIdx]
  | cons a t ih =>
    simp only [lookupIdx, List.mem_cons]
    by_cases h : a = c
    · simp [h]
    · simp only [if_neg h, Option.map_eq_none', ih]
      constructor
      · intro hn hc
        rcases hc with hc | hc
        · exact h hc.symm
        · exact hn hc
      · intro hn hc
        exact hn (Or.inr hc)

theorem charVal_eq_none_iff (c : Char) :
    charVal c = none ↔ c ∉ base58Alphabet :=
  lookupIdx_eq_none_iff c base58Alphabet

theorem charVals_eq_none_iff (cs : List Char) :
    charVals cs = none ↔ ∃ c ∈ cs, charVal c = none := by
  induction cs with
  | nil => simp [charVals]
  | cons c t ih =>
    cases hc : charVal c with
    | none => simp [charVals, hc]
    | some v =>
      cases ht : charVals t with
      | none =>
        simp only [charVals, hc, ht]
        constructor
        · intro _
          obtain ⟨c', hc', hv⟩ := ih.mp ht
          exact ⟨c', List.mem_cons_of_mem _ hc', hv⟩
        · intro _; trivial
      | some vs =>
        simp only [charVals, hc, ht]
        constructor
        · intro h; cases h
        · rintro ⟨c', hc', hv⟩
          rcases List.mem_cons.mp hc' with rfl | hc'
          · rw [hc] at hv; cases hv
          · have : charVals t = none := ih.mpr ⟨c', hc', hv⟩
            rw [ht] at this; cases this

theorem b58DecodeChars_eq_none_iff (cs : List Char) :
    b58DecodeChars cs = none ↔ ∃ c ∈ cs, c ∉ base58Alphabet := by
  constructor
  · intro h
    cases hcv : charVals cs with
    | none =>
      obtain ⟨c, hc, hv⟩ := (charVals_eq_none_iff cs).mp hcv
      exact ⟨c, hc, (charVal_eq_none_iff c).mp hv⟩
    | some vals => rw [b58DecodeChars, hcv] at h; cases h
  · intro ⟨c, hc, hv⟩
    have : charVals cs = none :=
      (charVals_eq_none_iff cs).mpr ⟨c, hc, (charVal_eq_none_iff c).mpr hv⟩
    rw [b58DecodeChars, this]

/-! ### Claim theorems: the codec (C3, C4) -/

/-- **C3.** For every non-empty byte sequence `p`,
`Decode (Encode p)` succeeds and returns `p`: the Base58Check
round-trip law of `bs58_check_encode` / `bs58_check_decode`. -/
theorem claim_C3 (p : List Nat) (hne : p ≠ []) (hbytes : IsBytes p) :
    bs58_check_decode (bs58_check_encode p) = .ok p := by
  have hck : ((sha256 (sha256 p)).take 4).length = 4 := by
    rw [List.length_take, length_sha256]
    decide
  have hfull : IsBytes (p ++ (sha256 (sha256 p)).take 4) := by
    intro b hb'
    rcases List.mem_append.mp hb' with h | h
    · exact hbytes b h
    · exact isBytes_sha256 _ b (List.mem_of_mem_take h)
  have hdec := b58_roundtrip _ hfull
  rw [bs58_check_encode, bs58_check_decode_of_some _ _ hdec]
  have hlen : (p ++ (sha256 (sha256 p)).take 4).length = p.length + 4 := by
    rw [List.length_append, hck]
  rw [if_neg (by omega)]
  have hl4 : (p ++ (sha256 (sha256 p)).take 4).length - 4 = p.length := by omega
  rw [hl4, List.take_left, List.drop_left, if_pos rfl]

/-- **C3 witness.** The round trip at the concrete payload `41 01 02`. -/
theorem claim_C3_witness :
    ([0x41, 1, 2] ≠ ([] : List Nat)) ∧ IsBytes [0x41, 1, 2] ∧
      bs58_check_decode (bs58_check_encode [0x41, 1, 2]) = .ok [0x41, 1, 2] :=
  ⟨by decide, by decide, claim_C3 [0x41, 1, 2] (by decide) (by decide)⟩

/-- **C4.** `bs58_check_decode` fails with `FormatError` exactly when the
input has a character outside the Base58 alphabet or its Base58 decoding
is shorter than 4 bytes; fails with `ChecksumError` exactly when the last
4 decoded bytes differ from `SHA256 (SHA256 payload)` truncated to 4
bytes; and otherwise returns the payload. -/
theorem claim_C4 (s : List Char) :
    (bs58_check_decode s = .err .formatError ↔
      (∃ c ∈ s, c ∉ base58Alphabet) ∨
      ∃ d, b58DecodeChars s = some d ∧ d.length < 4) ∧
    (bs58_check_decode s = .err .checksumError ↔
      ∃ d, b58DecodeChars s = some d ∧ 4 ≤ d.length ∧
        (sha256 (sha256 (d.take (d.length - 4)))).take 4 ≠
          d.drop (d.length - 4)) ∧
    (∀ d, b58DecodeChars s = some d → 4 ≤ d.length →
      (sha256 (sha256 (d.take (d.length - 4)))).take 4 = d.drop (d.length - 4) →
      bs58_check_decode s = .ok (d.take (d.length - 4))) := by
  cases hd : b58DecodeChars s with
  | none =>
    refine ⟨?_, ?_, ?_⟩
    · rw [bs58_check_decode_of_none _ hd]
      simp only [true_iff]
      exact Or.inl ((b58DecodeChars_eq_none_iff s).mp hd)
    · rw [bs58_check_decode_of_none _ hd]
      constructor
      · intro h; cases h
      · rintro ⟨d, hsome, _⟩; simp [hd] at hsome
    · intro d hsome; simp [hd] at hsome
  | some d =>
    have hnone : ¬∃ c ∈ s, c ∉ base58Alphabet := by
      intro hc
      have := (b58DecodeChars_eq_none_iff s).mpr hc
      rw [hd] at this; cases this
    by_cases hlen : d.length < 4
    · refine ⟨?_, ?_, ?_⟩
      · rw [bs58_check_decode_of_some _ _ hd, if_pos hlen]
        simp only [true_iff]
        exact Or.inr ⟨d, rfl, hlen⟩
      · rw [bs58_check_decode_of_some _ _ hd, if_pos hlen]
        constructor
        · intro h; cases h
        · rintro ⟨d', hsome, hge, _⟩
          have hdd : d = d' := Option.some.inj hsome
          subst hdd
          omega
      · intro d' hsome hge
        have hdd : d = d' := Option.some.inj hsome
        subst hdd
        omega
    · by_cases hsum : (sha256 (sha256 (d.take (d.length - 4)))).take 4 =
          d.drop (d.length - 4)
      · refine ⟨?_, ?_, ?_⟩
        · rw [bs58_check_decode_of_some _ _ hd, if_neg hlen, if_pos hsum]
          constructor
          · intro h; cases h
          · rintro (hc | ⟨d', hsome, hlt⟩)
            · exact absurd hc hnone
            · have hdd : d = d' := Option.some.inj hsome
              subst hdd
              omega
        · rw [bs58_check_decode_of_some _ _ hd, if_neg hlen, if_pos hsum]
          constructor
          · intro h; cases h
          · rintro ⟨d', hsome, _, hne⟩
            have hdd : d = d' := Option.some.inj hsome
            subst hdd
            exact (hne hsum).elim
        · intro d' hsome _ _
          have hdd : d = d' := Option.some.inj hsome
          subst hdd
          rw [bs58_check_decode_of_some _ _ hd, if_neg hlen, if_pos hsum]
      · refine ⟨?_, ?_, ?_⟩
        · rw [bs58_check_decode_of_some _ _ hd, if_neg hlen, if_neg hsum]
          constructor
          · intro h; cases h
          · rintro (hc | ⟨d', hsome, hlt⟩)
            · exact absurd hc hnone
            · have hdd : d = d' := Option.some.inj hsome
              subst hdd
              omega
        · rw [bs58_check_decode_of_some _ _ hd, if_neg hlen, if_neg hsum]
          simp only [true_iff]
          exact ⟨d, rfl, by omega, hsum⟩
        · intro d' hsome _ hsum'
          have hdd : d = d' := Option.some.inj hsome
          subst hdd
          exact absurd hsum' hsum

/-- **C4 witness.** Concrete instances of all three components:
`'0'` is outside the alphabet; `"3QJmnh"` decodes to the 4-byte
checksum of the empty payload and is accepted. -/
theorem claim_C4_witness :
    bs58_check_decode ['0'] = .err .formatError ∧
      bs58_check_decode ("3QJmnh".toList) = .ok [] :=
  ⟨(claim_C4 ['0']).1.mpr (Or.inl ⟨'0', by decide, by decide⟩),
   (claim_C4 ("3QJmnh".toList)).2.2
     [0x5d, 0xf6, 0xe0, 0xe2] (by decide) (by decide) (by decide)⟩

/-! ### Lemmas: the ABI encoder -/

theorem length_hexEncodeChars (l : List Nat) :
    (hexEncodeChars l).length = 2 * l.length := by
  induction l with
  | nil => rfl
  | cons b t ih =>
    simp only [hexEncodeChars, List.flatMap_cons] at ih ⊢
    simp only [List.length_append, List.length_cons, List.length_nil, ih]
    omega

theorem length_padMin64 (s : List Char) :
    (padMin64 s).length = max 64 s.length := by
  simp only [padMin64, List.length_append, List.length_replicate]
  omega

theorem length_natToHexChars_le (n k : Nat) (hk : 1 ≤ k) (h : n < 16 ^ k) :
    (natToHexChars n).length ≤ k := by
  rw [natToHexChars]
  by_cases h0 : n = 0
  · simpa [h0] using hk
  · rw [if_neg h0, natDigits_eq_digits (by norm_num)]
    simp only [List.length_map, List.length_reverse]
    rw [Nat.digits_len 16 n (by norm_num) h0]
    have := (Nat.lt_pow_iff_log_lt (b := 16) (by norm_num) h0).mp h
    omega

theorem length_natHexPad64 (n : Nat) (h : n < 16 ^ 64) :
    (natHexPad64 n).length = 64 := by
  rw [natHexPad64, length_padMin64]
  have := length_natToHexChars_le n 64 (by norm_num) h
  omega

theorem tron_address_to_hex_ok (address : List Char) (p : List Nat)
    (h : bs58_check_decode address = .ok p) :
    tron_address_to_hex address = .ok (hexEncodeChars p) := by
  rw [tron_address_to_hex, h]

theorem tron_address_to_hex_err (address : List Char) (e : CodecErr)
    (h : bs58_check_decode address = .err e) :
    tron_address_to_hex address = .error e := by
  rw [tron_address_to_hex, h]

theorem encode_constructor_params_of_usdt_ok (usdt : List Char)
    (owners : List (List Char)) (threshold : Nat) (uhex : List Char)
    (h : tron_address_to_hex usdt = .ok uhex) :
    encode_constructor_params usdt owners threshold =
      if 2 ≤ uhex.length then
        match encodeOwnersData owners with
        | .ok owners_data =>
          .ok (padMin64 (uhex.drop 2) ++ natHexPad64 96 ++ natHexPad64 threshold ++
               natHexPad64 owners.length ++ owners_data)
        | .err e => .err e
        | .panicked => .panicked
      else .panicked := by
  rw [encode_constructor_params, h]

theorem encodeOwnersData_cons_ok (o : List Char) (os : List (List Char))
    (p : List Nat) (h : bs58_check_decode o = .ok p) :
    encodeOwnersData (o :: os) =
      if 2 ≤ (hexEncodeChars p).length then
        match encodeOwnersData os with
        | .ok restData => .ok (padMin64 ((hexEncodeChars p).drop 2) ++ restData)
        | .err e => .err e
        | .panicked => .panicked
      else .panicked := by
  rw [encodeOwnersData, tron_address_to_hex_ok _ _ h]

theorem encodeOwnersData_ok (owners : List (List Char)) (pays : List (List Nat))
    (h : List.Forall₂ (fun o p => bs58_check_decode o = .ok p) owners pays)
    (hlen : ∀ p ∈ pays, 1 ≤ p.length) :
    encodeOwnersData owners =
      .ok ((pays.map fun p => padMin64 ((hexEncodeChars p).drop 2)).flatten) := by
  induction h with
  | nil => rfl
  | @cons o p os ps hop htail ih =>
    have hp : 1 ≤ p.length := hlen p (by simp)
    have hhex : 2 ≤ (hexEncodeChars p).length := by
      rw [length_hexEncodeChars]; omega
    rw [encodeOwnersData_cons_ok _ _ _ hop, if_pos hhex,
      ih fun q hq => hlen q (by simp [hq])]
    simp

/-! ### Claim theorems: the encoder pipeline (C1, C5, C8, C9, C10) -/

/-- **C1.** In the deploy flow, a threshold of zero or greater than the
number of owners is rejected with the threshold error, for every owners
list and every token address — including invalid ones, since the check
runs before any address is decoded or any encoding occurs. -/
theorem claim_C1 (usdt : List Char) (owners : List (List Char)) (threshold : Nat)
    (h : threshold = 0 ∨ threshold > owners.length) :
    deploy_encode_constructor_params usdt owners threshold = .thresholdError := by
  rw [deploy_encode_constructor_params, if_pos]
  rcases h with h | h
  · exact Or.inl h
  · exact Or.inr h

/-- **C1 witness.** Threshold 0 (and, separately, threshold above the
owner count) is rejected even for a garbage token address. -/
theorem claim_C1_witness :
    deploy_encode_constructor_params ("notanaddress".toList) [] 0 = .thresholdError ∧
    deploy_encode_constructor_params ("notanaddress".toList)
      ["o1".toList] 2 = .thresholdError :=
  ⟨claim_C1 ("notanaddress".toList) [] 0 (Or.inl rfl),
   claim_C1 ("notanaddress".toList) ["o1".toList] 2 (Or.inr (by decide))⟩

theorem encode_constructor_params_ok (usdt : List Char) (pu : List Nat)
    (owners : List (List Char)) (pays : List (List Nat)) (threshold : Nat)
    (hu : bs58_check_decode usdt = .ok pu) (hul : 1 ≤ pu.length)
    (ho : List.Forall₂ (fun o p => bs58_check_decode o = .ok p) owners pays)
    (hol : ∀ p ∈ pays, 1 ≤ p.length) :
    encode_constructor_params usdt owners threshold =
      .ok (padMin64 ((hexEncodeChars pu).drop 2) ++ natHexPad64 96 ++
        natHexPad64 threshold ++ natHexPad64 owners.length ++
        (pays.map fun p => padMin64 ((hexEncodeChars p).drop 2)).flatten) := by
  rw [encode_constructor_params_of_usdt_ok _ _ _ _ (tron_address_to_hex_ok _ _ hu),
    if_pos (by rw [length_hexEncodeChars]; omega),
    encodeOwnersData_ok _ _ ho hol]

theorem take_len_append (a b : List Char) (n : Nat) (h : a.length = n) :
    (a ++ b).take n = a := by
  subst h; exact List.take_left a b

theorem drop_len_append (a b : List Char) (n : Nat) (h : a.length = n) :
    (a ++ b).drop n = b := by
  subst h; exact List.drop_left a b

/-- **C5 (amended).** For every successful call whose decoded address
payloads are each exactly 21 bytes (the standard versioned binary
address) and whose integer arguments fit their Rust integer types, the
output is the concatenation, in order, of: the padded 32-byte
token-address word; the 32-byte word for the offset 96 at byte offset
32; the threshold word at byte offset 64; the owners-array length word
at byte offset 96; and each owner's padded 32-byte word in input
order. -/
theorem claim_C5 (usdt : List Char) (pu : List Nat) (owners : List (List Char))
    (pays : List (List Nat)) (threshold : Nat) (out : List Char)
    (hu : bs58_check_decode usdt = .ok pu) (hul : pu.length = 21)
    (ho : List.Forall₂ (fun o p => bs58_check_decode o = .ok p) owners pays)
    (hol : ∀ p ∈ pays, p.length = 21)
    (htb : threshold < 2 ^ 64) (hob : owners.length < 2 ^ 64)
    (hok : encode_constructor_params usdt owners threshold = .ok out) :
    out.take 64 = padMin64 ((hexEncodeChars pu).drop 2) ∧
    (padMin64 ((hexEncodeChars pu).drop 2)).length = 64 ∧
    (out.drop 64).take 64 = natHexPad64 96 ∧
    (out.drop 128).take 64 = natHexPad64 threshold ∧
    (out.drop 192).take 64 = natHexPad64 owners.length ∧
    out.drop 256 = (pays.map fun p => padMin64 ((hexEncodeChars p).drop 2)).flatten ∧
    (∀ p ∈ pays, (padMin64 ((hexEncodeChars p).drop 2)).length = 64) := by
  have henc := encode_constructor_params_ok usdt pu owners pays threshold hu
    (by omega) ho (fun p hp => by have := hol p hp; omega)
  rw [hok] at henc
  have hout : out = padMin64 ((hexEncodeChars pu).drop 2) ++ natHexPad64 96 ++
      natHexPad64 threshold ++ natHexPad64 owners.length ++
      (pays.map fun p => padMin64 ((hexEncodeChars p).drop 2)).flatten := by
    injection henc
  subst hout
  have hA : (padMin64 ((hexEncodeChars pu).drop 2)).length = 64 := by
    rw [length_padMin64, List.length_drop, length_hexEncodeChars, hul]
    decide
  have h16 : (2 : Nat) ^ 64 ≤ 16 ^ 64 := Nat.pow_le_pow_left (by norm_num) 64
  have hB : (natHexPad64 96).length = 64 := length_natHexPad64 96 (by norm_num)
  have hC : (natHexPad64 threshold).length = 64 :=
    length_natHexPad64 _ (lt_of_lt_of_le htb h16)
  have hD : (natHexPad64 owners.length).length = 64 :=
    length_natHexPad64 _ (lt_of_lt_of_le hob h16)
  simp only [List.append_assoc]
  have e1 := drop_len_append (padMin64 ((hexEncodeChars pu).drop 2))
    (natHexPad64 96 ++ (natHexPad64 threshold ++ (natHexPad64 owners.length ++
      (pays.map fun p => padMin64 ((hexEncodeChars p).drop 2)).flatten))) 64 hA
  have e2 := drop_len_append (natHexPad64 96)
    (natHexPad64 threshold ++ (natHexPad64 owners.length ++
      (pays.map fun p => padMin64 ((hexEncodeChars p).drop 2)).flatten)) 64 hB
  have e3 := drop_len_append (natHexPad64 threshold)
    (natHexPad64 owners.length ++
      (pays.map fun p => padMin64 ((hexEncodeChars p).drop 2)).flatten) 64 hC
  have e4 := drop_len_append (natHexPad64 owners.length)
    ((pays.map fun p => padMin64 ((hexEncodeChars p).drop 2)).flatten) 64 hD
  refine ⟨take_len_append _ _ _ hA, hA, ?_, ?_, ?_, ?_, ?_⟩
  · rw [e1, take_len_append _ _ _ hB]
  · rw [show (128 : Nat) = 64 + 64 by norm_num, ← List.drop_drop, e1, e2,
      take_len_append _ _ _ hC]
  · rw [show (192 : Nat) = 64 + (64 + 64) by norm_num, ← List.drop_drop,
      ← List.drop_drop, e1, e2, e3, take_len_append _ _ _ hD]
  · rw [show (256 : Nat) = 64 + (64 + (64 + 64)) by norm_num, ← List.drop_drop,
      ← List.drop_drop, ← List.drop_drop, e1, e2, e3, e4]
  · intro p hp
    rw [length_padMin64, List.length_drop, length_hexEncodeChars, hol p hp]
    decide

/-- **C5 counterexample.** The original claim quantified over *every*
successful call. The Base58Check string below carries a checksum-valid
34-byte payload; the encoder accepts it, its token-address word is 66
hex chars long, and the word at byte offset 32 of the output is *not*
the offset word 96. -/
theorem claim_C5_counterexample :
    encode_constructor_params
        ("AdGALSBQ8CkDLY8Sz4gaGTZDzc5BKRquC9Q9YRYVcfmiFjsda98u".toList) [] 0 =
      .ok (padMin64 ((hexEncodeChars (0x41 :: List.replicate 33 0x11)).drop 2) ++
        natHexPad64 96 ++ natHexPad64 0 ++ natHexPad64 0 ++ []) ∧
    ((padMin64 ((hexEncodeChars (0x41 :: List.replicate 33 0x11)).drop 2) ++
        natHexPad64 96 ++ natHexPad64 0 ++ natHexPad64 0 ++ []).drop 64).take 64 ≠
      natHexPad64 96 := by
  constructor
  · decide
  · decide

/-- **C5 witness.** The amended layout at a concrete token address and a
single concrete owner, both with standard 21-byte payloads. -/
theorem claim_C5_witness :
    ((padMin64 ((hexEncodeChars (0x41 :: (List.range 20).map (· + 61))).drop 2) ++
        natHexPad64 96 ++ natHexPad64 1 ++ natHexPad64 1 ++
        ([padMin64 ((hexEncodeChars (0x41 :: (List.range 20).map (· + 1))).drop 2)]).flatten).drop
          64).take 64 = natHexPad64 96 :=
  (claim_C5 ("TFZ2nmDdmHuF8BxHrtrsX8nPgTX3FfuGzz".toList)
    (0x41 :: (List.range 20).map (· + 61))
    ["TA4Y62o6YC2Zsck9rZVGTvqW1AQ7X9zTnj".toList]
    [0x41 :: (List.range 20).map (· + 1)] 1 _
    (by decide) (by decide)
    (.cons (by decide) .nil) (by decide)
    (by decide) (by decide) (by decide)).2.2.1

/-- **C8.** For every token address and three owner addresses that all
decode to 21-byte payloads, encoding with threshold 2 succeeds and the
output hex string has exactly (3 + 1 + 3) * 64 = 448 characters. -/
theorem claim_C8 (usdt o1 o2 o3 : List Char) (pu p1 p2 p3 : List Nat)
    (hu : bs58_check_decode usdt = .ok pu) (hul : pu.length = 21)
    (h1 : bs58_check_decode o1 = .ok p1) (hl1 : p1.length = 21)
    (h2 : bs58_check_decode o2 = .ok p2) (hl2 : p2.length = 21)
    (h3 : bs58_check_decode o3 = .ok p3) (hl3 : p3.length = 21) :
    ∃ out, encode_constructor_params usdt [o1, o2, o3] 2 = .ok out ∧
      out.length = 448 := by
  refine ⟨_, encode_constructor_params_ok usdt pu [o1, o2, o3] [p1, p2, p3] 2 hu
    (by omega) (.cons h1 (.cons h2 (.cons h3 .nil))) ?_, ?_⟩
  · intro p hp
    simp only [List.mem_cons, List.not_mem_nil, or_false] at hp
    rcases hp with rfl | rfl | rfl <;> omega
  · have hword : ∀ q : List Nat, q.length = 21 →
        (padMin64 ((hexEncodeChars q).drop 2)).length = 64 := by
      intro q hq
      rw [length_padMin64, List.length_drop, length_hexEncodeChars, hq]
      decide
    have hB := length_natHexPad64 96 (by norm_num)
    have hC := length_natHexPad64 2 (by norm_num)
    have hD := length_natHexPad64 3 (by norm_num)
    simp only [List.map_cons, List.map_nil, List.flatten_cons, List.flatten_nil,
      List.length_append, List.length_cons, List.length_nil,
      hword pu hul, hword p1 hl1, hword p2 hl2, hword p3 hl3]
    norm_num
    omega

/-- **C8 witness.** Four concrete standard addresses. -/
theorem claim_C8_witness :
    ∃ out, encode_constructor_params ("TFZ2nmDdmHuF8BxHrtrsX8nPgTX3FfuGzz".toList)
      ["TA4Y62o6YC2Zsck9rZVGTvqW1AQ7X9zTnj".toList,
       "TBthewbwcZKTd99XrfwoUzpTtvmkoFqt9q".toList,
       "TDisDrQngvcMNfYurnQLW4oRnh9PzwDFxh".toList] 2 = .ok out ∧
      out.length = 448 :=
  claim_C8 ("TFZ2nmDdmHuF8BxHrtrsX8nPgTX3FfuGzz".toList)
    ("TA4Y62o6YC2Zsck9rZVGTvqW1AQ7X9zTnj".toList)
    ("TBthewbwcZKTd99XrfwoUzpTtvmkoFqt9q".toList)
    ("TDisDrQngvcMNfYurnQLW4oRnh9PzwDFxh".toList)
    (0x41 :: (List.range 20).map (· + 61))
    (0x41 :: (List.range 20).map (· + 1))
    (0x41 :: (List.range 20).map (· + 21))
    (0x41 :: (List.range 20).map (· + 41))
    (by decide) (by decide) (by decide) (by decide)
    (by decide) (by decide) (by decide) (by decide)

/-- **C9.** There is a textual address accepted by `bs58_check_decode` —
the Base58 encoding of exactly the 4 checksum bytes of the empty
payload — whose payload is empty, and on which
`encode_constructor_params` panics at the string slice `&usdt_hex[2..]`
instead of returning an error. -/
theorem claim_C9 :
    b58DecodeChars ("3QJmnh".toList) = some ((sha256 (sha256 [])).take 4) ∧
    bs58_check_decode ("3QJmnh".toList) = .ok [] ∧
    encode_constructor_params ("3QJmnh".toList) [] 1 = .panicked := by
  exact ⟨by decide, by decide, by decide⟩

/-- **C10.** The encoder performs no length check on decoded payloads:
every checksum-valid address whose payload has at least 1 byte is
accepted as the token address regardless of its length (in particular
also when it is not 21 bytes), and the resulting token-address word
exceeds 64 hex chars as soon as the payload exceeds 33 bytes, since the
padding only enforces a minimum width. -/
theorem claim_C10 (s : List Char) (p : List Nat) (t : Nat)
    (hdec : bs58_check_decode s = .ok p) (hmin : 1 ≤ p.length)
    (hne21 : p.length ≠ 21) :
    encode_constructor_params s [] t =
      .ok (padMin64 ((hexEncodeChars p).drop 2) ++ natHexPad64 96 ++
        natHexPad64 t ++ natHexPad64 0 ++ []) ∧
    (34 ≤ p.length → 64 < (padMin64 ((hexEncodeChars p).drop 2)).length) := by
  constructor
  · exact encode_constructor_params_ok s p [] [] t hdec hmin .nil (by simp)
  · intro h34
    rw [length_padMin64, List.length_drop, length_hexEncodeChars]
    omega

/-- **C10 witness.** The 1-byte payload `41` (address `8M5JoSg`) and the
34-byte payload address both pass; shown here for the 1-byte case. -/
theorem claim_C10_witness :
    encode_constructor_params ("8M5JoSg".toList) [] 0 =
      .ok (padMin64 ((hexEncodeChars [0x41]).drop 2) ++ natHexPad64 96 ++
        natHexPad64 0 ++ natHexPad64 0 ++ []) ∧
    (34 ≤ [0x41].length → 64 < (padMin64 ((hexEncodeChars [0x41]).drop 2)).length) :=
  claim_C10 ("8M5JoSg".toList) [0x41] 0 (by decide) (by decide) (by decide)

/-! ### Lemmas: the deriver and the signer -/

theorem length_serializeUncompressed (P : ECPoint) :
    (serializeUncompressed P).length = 65 := by
  cases P with
  | none => simp [serializeUncompressed, length_bytesBE]
  | some xy =>
    obtain ⟨x, y⟩ := xy
    simp [serializeUncompressed, length_bytesBE]

theorem private_key_to_tron_address_ok (private_key : List Char) (kb : List Nat)
    (hk : hexDecodeChars (trimStart0x private_key) = some kb)
    (hkv : isValidSecretKey kb = true) :
    private_key_to_tron_address private_key = .ok (bs58_check_encode (0x41 ::
      (keccak256 ((serializeUncompressed (pmul (natOfBytes kb) secpG)).drop 1)).drop 12)) := by
  simp only [private_key_to_tron_address, hk]
  rw [if_pos hkv]

/-- **C2.** For every valid private key, the derivation serializes the
public key uncompressed (65 bytes), drops the first byte, hashes the
remaining 64 bytes with Keccak-256, takes the **last 20 bytes** of the
32-byte digest (`drop (length - 20)`, which the source realizes as
`hash[12..]`), prepends the network prefix byte `0x41`, and
Base58Check-encodes the resulting 21-byte binary address. -/
theorem claim_C2 (private_key : List Char) (kb : List Nat)
    (hk : hexDecodeChars (trimStart0x private_key) = some kb)
    (hkv : isValidSecretKey kb = true) :
    (serializeUncompressed (pmul (natOfBytes kb) secpG)).length = 65 ∧
    (keccak256 ((serializeUncompressed (pmul (natOfBytes kb) secpG)).drop 1)).length = 32 ∧
    private_key_to_tron_address private_key = .ok (bs58_check_encode (0x41 ::
      (keccak256 ((serializeUncompressed (pmul (natOfBytes kb) secpG)).drop 1)).drop
        ((keccak256 ((serializeUncompressed (pmul (natOfBytes kb) secpG)).drop 1)).length - 20))) ∧
    (0x41 :: (keccak256 ((serializeUncompressed (pmul (natOfBytes kb) secpG)).drop 1)).drop
        ((keccak256 ((serializeUncompressed (pmul (natOfBytes kb) secpG)).drop 1)).length - 20)).length
      = 21 := by
  have hkl := length_keccak256 ((serializeUncompressed (pmul (natOfBytes kb) secpG)).drop 1)
  refine ⟨length_serializeUncompressed _, hkl, ?_, ?_⟩
  · rw [hkl]
    show private_key_to_tron_address private_key = .ok (bs58_check_encode (0x41 ::
      (keccak256 ((serializeUncompressed (pmul (natOfBytes kb) secpG)).drop 1)).drop 12))
    exact private_key_to_tron_address_ok private_key kb hk hkv
  · simp only [List.length_cons, List.length_drop, hkl]

set_option maxHeartbeats 1600000 in
/-- **C2 witness.** The private key with scalar value 1. -/
theorem claim_C2_witness :
    (0x41 :: (keccak256 ((serializeUncompressed
        (pmul (natOfBytes (List.replicate 31 0 ++ [1])) secpG)).drop 1)).drop
      ((keccak256 ((serializeUncompressed
        (pmul (natOfBytes (List.replicate 31 0 ++ [1])) secpG)).drop 1)).length - 20)).length
    = 21 :=
  (claim_C2
    ("0000000000000000000000000000000000000000000000000000000000000001".toList)
    (List.replicate 31 0 ++ [1]) (by decide) (by decide)).2.2.2

/-- **C7.** For every valid private key and every hex message whose byte
length is not exactly 32, signing fails with the invalid-digest error —
the message is not hashed, padded, or signed. -/
theorem claim_C7 (tx_id private_key : List Char) (kb tb : List Nat)
    (hk : hexDecodeChars (trimStart0x private_key) = some kb)
    (ht : hexDecodeChars tx_id = some tb)
    (hkv : isValidSecretKey kb = true)
    (hlen : tb.length ≠ 32) :
    sign_transaction tx_id private_key = .invalidDigest := by
  simp only [sign_transaction, hk, ht]
  rw [if_pos hkv, if_neg hlen]

/-- **C7 witness.** A valid key with a 1-byte message. -/
theorem claim_C7_witness :
    sign_transaction ("00".toList)
      ("0000000000000000000000000000000000000000000000000000000000000001".toList) =
      .invalidDigest :=
  claim_C7 ("00".toList)
    ("0000000000000000000000000000000000000000000000000000000000000001".toList)
    (List.replicate 31 0 ++ [1]) [0] (by decide) (by decide) (by decide) (by decide)

theorem xor_one_lt_four (n : Nat) (h : n < 4) : n ^^^ 1 < 4 := by
  interval_cases n <;> decide

theorem signAttempt_recid_lt (x z k recid r s : Nat)
    (h : signAttempt x z k = some (recid, r, s)) : recid < 4 := by
  simp only [signAttempt] at h
  split at h
  · split at h
    · exact absurd h (by simp)
    · rename_i rx ry heq
      split at h
      · exact absurd h (by simp)
      · split at h
        · exact absurd h (by simp)
        · have hparity : ry % 2 < 2 := by omega
          have hbase : (if secpN ≤ rx then 2 else 0) + ry % 2 < 4 := by
            split <;> omega
          split at h
          · have h1 : ((if secpN ≤ rx then 2 else 0) + ry % 2) ^^^ 1 = recid := by
              have := congrArg (fun o => (Option.getD o (0, 0, 0)).1) h
              simpa using this
            rw [← h1]
            exact xor_one_lt_four _ hbase
          · have h1 : (if secpN ≤ rx then 2 else 0) + ry % 2 = recid := by
              have := congrArg (fun o => (Option.getD o (0, 0, 0)).1) h
              simpa using this
            rw [← h1]
            exact hbase
  · exact absurd h (by simp)

theorem signLoop_recid_lt (x z : Nat) :
    ∀ (fuel : Nat) (kk vv : List Nat) (recid r s : Nat),
      signLoop x z kk vv fuel = some (recid, r, s) → recid < 4 := by
  intro fuel
  induction fuel with
  | zero =>
    intro kk vv recid r s h
    simp [signLoop] at h
  | succ fuel ih =>
    intro kk vv recid r s h
    simp only [signLoop] at h
    cases ha : signAttempt x z (natOfBytes (hmacSha256 kk vv)) with
    | some out =>
      rw [ha] at h
      injection h with h1
      obtain ⟨a, b, c⟩ := out
      rw [h1] at ha
      exact signAttempt_recid_lt _ _ _ _ _ _ ha
    | none =>
      rw [ha] at h
      exact ih _ _ _ _ _ h

theorem sign_transaction_ok (tx_id private_key : List Char) (kb tb : List Nat)
    (recid r s : Nat)
    (hk : hexDecodeChars (trimStart0x private_key) = some kb)
    (ht : hexDecodeChars tx_id = some tb)
    (hkv : isValidSecretKey kb = true)
    (hlen : tb.length = 32)
    (hsig : ecdsaSignRecoverable (natOfBytes kb) tb = some (recid, r, s)) :
    sign_transaction tx_id private_key =
      .ok (hexEncodeChars (bytesBE 32 r ++ bytesBE 32 s ++ [recid])) := by
  simp only [sign_transaction, hk, ht]
  rw [if_pos hkv, if_pos hlen, hsig]

/-- **C6.** For every valid private key and 32-byte digest, on every
signature the nonce loop produces, `sign_transaction` outputs the hex
encoding of exactly 65 bytes laid out as `r` (32 bytes big-endian), `s`
(32 bytes big-endian), then the recovery id as one byte taken directly
from the native 0-3 range, not remapped to a 27/28 convention. -/
theorem claim_C6 (tx_id private_key : List Char) (kb tb : List Nat)
    (recid r s : Nat)
    (hk : hexDecodeChars (trimStart0x private_key) = some kb)
    (ht : hexDecodeChars tx_id = some tb)
    (hkv : isValidSecretKey kb = true)
    (hlen : tb.length = 32)
    (hsig : ecdsaSignRecoverable (natOfBytes kb) tb = some (recid, r, s)) :
    sign_transaction tx_id private_key =
      .ok (hexEncodeChars (bytesBE 32 r ++ bytesBE 32 s ++ [recid])) ∧
    (bytesBE 32 r).length = 32 ∧ (bytesBE 32 s).length = 32 ∧ recid < 4 ∧
    (hexEncodeChars (bytesBE 32 r ++ bytesBE 32 s ++ [recid])).length = 130 := by
  refine ⟨sign_transaction_ok tx_id private_key kb tb recid r s hk ht hkv hlen hsig,
    length_bytesBE _ _, length_bytesBE _ _, ?_, ?_⟩
  · exact signLoop_recid_lt _ _ _ _ _ _ _ _
      (by simpa only [ecdsaSignRecoverable] using hsig)
  · rw [length_hexEncodeChars]
    simp [List.length_append, length_bytesBE]

set_option maxHeartbeats 12000000 in
/-- **C6 witness.** A concrete signature: key scalar `0x1111…11` over
the digest `00 01 … 1f`; the nonce loop's output is evaluated and the
serialized form checked through the theorem. -/
theorem claim_C6_witness :
    sign_transaction
      ("000102030405060708090a0b0c0d0e0f101112131415161718191a1b1c1d1e1f".toList)
      ("1111111111111111111111111111111111111111111111111111111111111111".toList) =
      .ok (hexEncodeChars
        (bytesBE 32 31560144068891837787477564191506910637688036464001736787984938611523540986327 ++
         bytesBE 32 9104475292055535390929344494972179208743960253551511357174678465571778798370 ++
         [0])) :=
  (claim_C6
    ("000102030405060708090a0b0c0d0e0f101112131415161718191a1b1c1d1e1f".toList)
    ("1111111111111111111111111111111111111111111111111111111111111111".toList)
    (List.replicate 32 0x11) (List.range 32) 0
    31560144068891837787477564191506910637688036464001736787984938611523540986327
    9104475292055535390929344494972179208743960253551511357174678465571778798370
    (by decide) (by decide) (by decide) (by decide) (by decide)).1

end TronUtils
